import Mathlib

/-!
Shallow embedding of the hybrid memory subsystem of `mle/utils/memory.py`:
the fast LanceDB-backed store (`LanceDBMemory`), the slow mem0-backed store
(`Mem0`), and the coordinator (`HybridMemory`) with its consolidation
algorithms.  Machine-level concerns (vector indexing, uuid randomness,
network I/O) are modelled by explicit state: the embedding function is a
field of the store, uuid generation is a fresh counter, and the backing
services are in-memory lists.
-/

/-- Python exception classes that the memory subsystem can raise. -/
inductive PyErr where
  | typeError
  | valueError
  | assertionError
  | attributeError
  | notImplemented
deriving DecidableEq, Repr

/-- Python values that can appear as metadata fields: `None`, `int`, `str`.
Used for the raw (uncoerced) sort keys of `top_k_consolidate`. -/
inductive PVal where
  | pnone
  | pint (i : Int)
  | pstr (s : String)
deriving DecidableEq, Repr

/-- Rank of a value's type; used only to extend Python's partial comparison
to a total one (the extension is never observed: mixed-type key lists are
rejected before sorting, mirroring CPython's `TypeError`). -/
def pvalTag : PVal → Nat
  | .pnone => 0
  | .pint _ => 1
  | .pstr _ => 2

def pvalIsInt : PVal → Bool
  | .pint _ => true
  | _ => false

def pvalIsStr : PVal → Bool
  | .pstr _ => true
  | _ => false

/-- Total Boolean order on `PVal` that agrees with Python's `<=` on two
ints or two strings; on pairs Python cannot compare it falls back to the
type rank (that branch is shielded by the mixed-type guard). -/
def pvalLeB : PVal → PVal → Bool
  | .pint i, .pint j => decide (i ≤ j)
  | .pstr s, .pstr t => decide (s ≤ t)
  | a, b => decide (pvalTag a ≤ pvalTag b)

/-- A Python dict used as a metadata mapping (association list, first
binding wins, as for insertion-ordered dict lookup). -/
abbrev MetaMap := List (String × PVal)

/-- Python `d.get(k)`: `None` when the key is absent. -/
def metaGet (m : MetaMap) (k : String) : PVal :=
  match m.find? (fun p => p.1 == k) with
  | some p => p.2
  | none => .pnone

/-- Two-digit decimal field of an ISO timestamp. -/
def digits2 (c1 c2 : Char) : Option Nat :=
  if c1.isDigit && c2.isDigit then
    some ((c1.toNat - 48) * 10 + (c2.toNat - 48))
  else none

def digits4 (c1 c2 c3 c4 : Char) : Option Nat :=
  if c1.isDigit && c2.isDigit && c3.isDigit && c4.isDigit then
    some ((((c1.toNat - 48) * 10 + (c2.toNat - 48)) * 10 + (c3.toNat - 48)) * 10
      + (c4.toNat - 48))
  else none

def isLeapYear (y : Nat) : Bool :=
  y % 4 == 0 && (y % 100 != 0 || y % 400 == 0)

def daysInMonth (y m : Nat) : Nat :=
  if m == 2 then (if isLeapYear y then 29 else 28)
  else if m == 4 || m == 6 || m == 9 || m == 11 then 30
  else 31

/-- Encode a validated timestamp so that `Nat` order equals
lexicographic order on (year, month, day, hour, minute, second), the
comparison order of Python `datetime` objects. -/
def encodeTS (y mo d hh mm ss : Nat) : Nat :=
  ((((y * 13 + mo) * 32 + d) * 24 + hh) * 60 + mm) * 60 + ss

/-- Parse the optional time part `[T| ]HH:MM[:SS]` of an ISO string. -/
def parseTimePart : List Char → Option (Nat × Nat × Nat)
  | [] => some (0, 0, 0)
  | sep :: h1 :: h2 :: ':' :: n1 :: n2 :: rest =>
    if sep = 'T' || sep = ' ' then do
      let hh ← digits2 h1 h2
      let mm ← digits2 n1 n2
      if hh ≤ 23 && mm ≤ 59 then
        match rest with
        | [] => some (hh, mm, 0)
        | ':' :: s1 :: s2 :: [] => do
          let ss ← digits2 s1 s2
          if ss ≤ 59 then some (hh, mm, ss) else none
        | _ => none
      else none
    else none
  | _ => none

/-- Model of `datetime.fromisoformat` on the subset of ISO-8601 used by the
memory timestamps (`YYYY-MM-DD` with optional `HH:MM[:SS]` time part; no
fractional seconds or timezone offsets).  `none` models `ValueError`. -/
def parseIso (s : String) : Option Nat :=
  match s.data with
  | y1 :: y2 :: y3 :: y4 :: '-' :: m1 :: m2 :: '-' :: d1 :: d2 :: rest => do
    let y ← digits4 y1 y2 y3 y4
    let mo ← digits2 m1 m2
    let d ← digits2 d1 d2
    if 1 ≤ mo && mo ≤ 12 && 1 ≤ d && d ≤ daysInMonth y mo then
      let (hh, mm, ss) ← parseTimePart rest
      some (encodeTS y mo d hh mm ss)
    else none
  | _ => none

/-- Model of `datetime.fromisoformat(x)` where `x` may be `None`:
`TypeError` on `None`, `ValueError` on an unparsable string. -/
def fromisoformat : Option String → Except PyErr Nat
  | none => .error .typeError
  | some s =>
    match parseIso s with
    | some n => .ok n
    | none => .error .valueError

/-- Python `a or b` on optional strings (`None` and `""` are falsy). -/
def pyOr (a b : Option String) : Option String :=
  match a with
  | some s => if s = "" then b else some s
  | none => b

/-- Effectful map over a list in the `Except` monad, evaluated left to
right and stopping at the first error.  Models CPython's `sorted(key=f)`
computing every element's key, in list order, before any comparison. -/
def exMapM (f : α → Except PyErr β) : List α → Except PyErr (List β)
  | [] => .ok []
  | x :: xs =>
    match f x with
    | .error e => .error e
    | .ok b =>
      match exMapM f xs with
      | .error e => .error e
      | .ok bs => .ok (b :: bs)

/-- Stable insertion of `x` into `l`: `x` goes before the first element
`y` with `le x y`. -/
def insertLe (le : α → α → Bool) (x : α) : List α → List α
  | [] => [x]
  | y :: ys => if le x y then x :: y :: ys else y :: insertLe le x ys

/-- Stable insertion sort.  For a total preorder the stable sorted
permutation is unique, so this computes the same list as CPython's stable
`sorted`. -/
def isortLe (le : α → α → Bool) : List α → List α
  | [] => []
  | x :: xs => insertLe le x (isortLe le xs)

/-- Python `zip` over four lists (truncates to the shortest). -/
def zip4 (as : List α) (bs : List β) (cs : List γ) (ds : List δ) :
    List (α × β × γ × δ) :=
  ((as.zip bs).zip (cs.zip ds)).map (fun p => (p.1.1, p.1.2, p.2.1, p.2.2))

/-- Model of `uuid.uuid4()` id generation: `n` fresh ids drawn from a
counter (distinct by construction). -/
def genIds (fresh n : Nat) : List String :=
  (List.range n).map (fun i => "uuid-" ++ toString (fresh + i))

/-- A row of a fast-tier (LanceDB) table: the dict built by
`LanceDBMemory.add` with keys `vector`, `text`, `id`, `metadata`. -/
structure FastRec where
  vector : Int
  text : String
  id : String
  metadata : Option MetaMap
deriving DecidableEq, Repr

/-- The `texts` argument of `LanceDBMemory.add`: a single string or a
list (`if isinstance(texts, str): texts = (texts,)`). -/
inductive PyTexts where
  | str (s : String)
  | list (l : List String)

/-- The `metadata` argument of `LanceDBMemory.add`: `None`, a single
dict, or a list of dicts. -/
inductive PyMeta where
  | none
  | dict (m : MetaMap)
  | list (l : List MetaMap)

/-- State of `LanceDBMemory`: the connected database (a list of named
tables of rows), the configured embedding function (the external
`compute_source_embeddings` capability, one vector per text, modelled by
an `Int` per text), and a counter feeding `uuid.uuid4()`. -/
structure LanceDBMemory where
  db_name : String
  table_name : String
  tables : List (String × List FastRec)
  embed : String → Int
  fresh : Nat

/-- Model of `self.client.table_names()`. -/
def LanceDBMemory.tableNames (db : LanceDBMemory) : List String :=
  db.tables.map (fun p => p.1)

/-- Method `LanceDBMemory._open_table`: open a table by name (default
`self.table_name`); `None` when it does not exist. -/
def LanceDBMemory.open_table (db : LanceDBMemory) (table_name : Option String) :
    Option (List FastRec) :=
  let t := table_name.getD db.table_name
  (db.tables.find? (fun p => p.1 == t)).map (fun p => p.2)

/-- Rows of a named table, `[]` when absent (lookup helper for stating
theorems about table contents). -/
def tableOf (db : LanceDBMemory) (t : String) : List FastRec :=
  match db.tables.find? (fun p => p.1 == t) with
  | some p => p.2
  | none => []

/-- Method `LanceDBMemory.add` (Python defaults: `metadata=None`,
`table_name=None`, `ids=None`).  A single-string `texts` becomes a
one-element batch; `None` metadata becomes a list of `None`s; a single
dict becomes a ONE-element tuple `(metadata,)`; a metadata list must
match `texts` in length (`assert`).  Rows are built by
`zip(ids, texts, embeds, metadata)`, which truncates to the shortest
input.  A missing target table is created, an existing one appended to;
either way the full id list is returned. -/
def LanceDBMemory.add (db : LanceDBMemory) (texts : PyTexts) (metadata : PyMeta)
    (table_name : Option String) (ids : Option (List String)) :
    LanceDBMemory × Except PyErr (List String) :=
  let ts : List String :=
    match texts with
    | .str s => [s]
    | .list l => l
  let metaE : Except PyErr (List (Option MetaMap)) :=
    match metadata with
    | .none => .ok (List.replicate ts.length Option.none)
    | .dict m => .ok [some m]
    | .list l =>
      if ts.length = l.length then .ok (l.map some) else .error .assertionError
  match metaE with
  | .error e => (db, .error e)
  | .ok metas =>
    let embeds := ts.map db.embed
    let tn := table_name.getD db.table_name
    let idGen :=
      match ids with
      | some (i :: is) => (i :: is, db)
      | _ => (genIds db.fresh ts.length, { db with fresh := db.fresh + ts.length })
    let theIds := idGen.1
    let db1 := idGen.2
    let data := (zip4 theIds ts embeds metas).map
      (fun q => { id := q.1, text := q.2.1, vector := q.2.2.1, metadata := q.2.2.2 : FastRec })
    let appended := db1.tables.map (fun p => if p.1 == tn then (p.1, p.2 ++ data) else p)
    let db2 :=
      if db1.tableNames.contains tn then
        { db1 with tables := appended }
      else
        { db1 with tables := db1.tables ++ [(tn, data)] }
    (db2, .ok theIds)

/-- Model of LanceDB's `table.search(q).limit(n).to_list()` (external
vector-index capability): up to `n` rows nearest to the query vector. -/
def searchVec (rows : List FastRec) (q : Int) (n : Nat) : List FastRec :=
  (isortLe (fun a b => decide ((a.vector - q).natAbs ≤ (b.vector - q).natAbs)) rows).take n

/-- Method `LanceDBMemory.query` (Python defaults: `table_name=None`,
`n_results=5`): returns `[]` outright when the table does not exist,
otherwise one result list per query text. -/
def LanceDBMemory.query (db : LanceDBMemory) (query_texts : List String)
    (table_name : Option String) (n_results : Nat) : List (List FastRec) :=
  match db.open_table table_name with
  | none => []
  | some rows =>
    let query_embeds := query_texts.map db.embed
    query_embeds.map (fun q => searchVec rows q n_results)

/-- Method `LanceDBMemory.count`: row count, `0` when the table is absent. -/
def LanceDBMemory.count (db : LanceDBMemory) (table_name : Option String) : Nat :=
  match db.open_table table_name with
  | none => 0
  | some rows => rows.length

/-- Method `LanceDBMemory.drop`: remove the named table (default table when
`None`); an absent table reports success unchanged. -/
def LanceDBMemory.drop (db : LanceDBMemory) (table_name : Option String) :
    LanceDBMemory × Bool :=
  let t := table_name.getD db.table_name
  match db.open_table (some t) with
  | none => (db, true)
  | some _ => ({ db with tables := db.tables.filter (fun p => p.1 != t) }, true)

/-- Method `LanceDBMemory.reset`: drops the default memory table only. -/
def LanceDBMemory.reset (db : LanceDBMemory) : LanceDBMemory :=
  (db.drop none).1

/-- A slow-tier (mem0) item as returned by `get_all`/`search`: a dict
with `id`, `memory` (the text), optional `metadata`, and optional
timestamp strings. -/
structure SlowRec where
  id : String
  memory : String
  metadata : Option MetaMap
  created_at : Option String
  updated_at : Option String
deriving DecidableEq, Repr

/-- State of the `Mem0` wrapper: the agent scope and the items the
backing client holds for that agent. -/
structure Mem0 where
  agent_id : String
  items : List SlowRec

/-- Method `Mem0.query` (Python default `n_results=5`): the wrapped client's
`search` is invoked and its result discarded — the Python method body has
no `return` statement, so the call evaluates to `None`. -/
def Mem0.query (m : Mem0) (query_text : String) (n_results : Nat) :
    Option (List SlowRec) :=
  let _results := m.items.take n_results
  none

/-- Method `Mem0.get_all` with no filters (Python default `n_results=100`):
bulk retrieval for the agent capped at `n_results`; the caller indexes
the provider's `{"results": [...]}` envelope, modelled by returning the
list directly. -/
def Mem0.get_all (m : Mem0) (n_results : Nat) : List SlowRec :=
  m.items.take n_results

/-- Method `Mem0.reset`: clears the client's memory. -/
def Mem0.reset (m : Mem0) : Mem0 :=
  { m with items := [] }

/-- An element of the heterogeneous result list built by
`HybridMemory.query`: fast-memory result lists, then (when extended)
individual slow-memory results. -/
inductive QueryItem where
  | fastList (l : List FastRec)
  | slowItem (r : SlowRec)
deriving DecidableEq, Repr

/-- The hybrid coordinator: references to its two backing stores. -/
structure HybridMemory where
  slow_memory : Mem0
  fast_memory : LanceDBMemory

/-- Method `HybridMemory.query` (Python defaults: `n_results=5`,
`fast_query=True`): always queries fast memory; when `fast_query` is
false it runs `results.extend(self.slow_memory.query(...))`, which
raises `TypeError` whenever the slow query evaluates to `None`
(`list.extend(None)` is not iterable). -/
def HybridMemory.query (h : HybridMemory) (query : String) (n_results : Nat)
    (fast_query : Bool) : Except PyErr (List QueryItem) :=
  let results := (h.fast_memory.query [query] none n_results).map QueryItem.fastList
  if fast_query then .ok results
  else
    match h.slow_memory.query query n_results with
    | none => .error .typeError
    | some rs => .ok (results ++ rs.map QueryItem.slowItem)

/-- Method `HybridMemory.reset` (Python default `only_reset_slow_memory=True`):
slow memory is reset unconditionally; fast memory only when the flag is
false. -/
def HybridMemory.reset (h : HybridMemory) (only_reset_slow_memory : Bool) :
    HybridMemory :=
  { slow_memory := h.slow_memory.reset
    fast_memory :=
      if only_reset_slow_memory then h.fast_memory else h.fast_memory.reset }

/-- Sort key of `last_n_consolidate`:
`datetime.fromisoformat(x.get("updated_at") or x.get("created_at"))`. -/
def lastNKeyOf (x : SlowRec) : Except PyErr Nat :=
  fromisoformat (pyOr x.updated_at x.created_at)

/-- Sort key of `top_k_consolidate`:
`x["metadata"].get(metadata_key)`; `AttributeError` when the item's
metadata is `None`. -/
def topKKeyOf (metadata_key : String) (x : SlowRec) : Except PyErr PVal :=
  match x.metadata with
  | none => .error .attributeError
  | some m => .ok (metaGet m metadata_key)

/-- Guard modelling CPython comparison of the key list during sorting:
with at most one element no comparison happens; otherwise every element
is compared at least once, so the sort succeeds exactly when the keys
share one comparable type (all `int` or all `str`) and raises
`TypeError` otherwise. -/
def cmpOk (ks : List PVal) : Bool :=
  ks.length ≤ 1 || ks.all pvalIsInt || ks.all pvalIsStr

/-- The push phase shared by both consolidation algorithms:
`for item in selected: self.fast_memory.add(texts=[item["memory"]])`.
Each iteration adds one metadata-free text to the default fast table;
a failing iteration stops the loop with fast memory holding the prefix
already pushed. -/
def pushTexts (db : LanceDBMemory) : List SlowRec → LanceDBMemory × Except PyErr Unit
  | [] => (db, .ok ())
  | it :: rest =>
    match db.add (.list [it.memory]) .none none none with
    | (db', .ok _) => pushTexts db' rest
    | (db', .error e) => (db', .error e)

/-- Method `HybridMemory.last_n_consolidate` (Python default `limit=1000`):
pull up to `limit` items from slow memory, sort them descending
(stable, `reverse=True`) by the parsed timestamp key, take the first
`n`, push each selected item's text into fast memory, and return the
selection. -/
def HybridMemory.last_n_consolidate (h : HybridMemory) (n : Nat) (limit : Nat) :
    HybridMemory × Except PyErr (List SlowRec) :=
  let items := h.slow_memory.get_all limit
  match exMapM lastNKeyOf items with
  | .error e => (h, .error e)
  | .ok ks =>
    let sorted := isortLe (fun a b => decide (b.2 ≤ a.2)) (items.zip ks)
    let last_n_items := (sorted.take n).map (fun p => p.1)
    let pushed := pushTexts h.fast_memory last_n_items
    ({ h with fast_memory := pushed.1 },
      match pushed.2 with
      | .ok _ => .ok last_n_items
      | .error e => .error e)

/-- Method `HybridMemory.top_k_consolidate` (Python defaults: `reverse=False`,
`limit=1000`): pull up to `limit` items, sort them (stable) by the raw
metadata value under `metadata_key`, ascending or descending per
`reverse`, take the first `k`, push each selected item's text into fast
memory, and return the selection. -/
def HybridMemory.top_k_consolidate (h : HybridMemory) (k : Nat)
    (metadata_key : String) (reverse : Bool) (limit : Nat) :
    HybridMemory × Except PyErr (List SlowRec) :=
  let items := h.slow_memory.get_all limit
  match exMapM (topKKeyOf metadata_key) items with
  | .error e => (h, .error e)
  | .ok ks =>
    if cmpOk ks then
      let le : SlowRec × PVal → SlowRec × PVal → Bool :=
        fun a b => if reverse then pvalLeB b.2 a.2 else pvalLeB a.2 b.2
      let sorted := isortLe le (items.zip ks)
      let topk_items := (sorted.take k).map (fun p => p.1)
      let pushed := pushTexts h.fast_memory topk_items
      ({ h with fast_memory := pushed.1 },
        match pushed.2 with
        | .ok _ => .ok topk_items
        | .error e => .error e)
    else (h, .error .typeError)

/-- Method `HybridMemory.prompt_based_consolidate`: `raise NotImplementedError`
for every prompt; neither store is touched. -/
def HybridMemory.prompt_based_consolidate (h : HybridMemory) (prompt : String) :
    HybridMemory × Except PyErr (List SlowRec) :=
  let _p := prompt
  (h, .error .notImplemented)

/-- A concrete embedding function for the sample states: the text's
length. -/
def embedLen : String → Int :=
  fun s => (s.length : Int)

/-- An empty fast store connected to the default `.mle` database with the
default `memory` table name. -/
def fastEmpty : LanceDBMemory :=
  { db_name := ".mle", table_name := "memory", tables := [], embed := embedLen,
    fresh := 0 }

/-- Slow items for the `last_n_consolidate` example of the spec:
`updated_at` values 2024-01-01, 2024-03-01, 2024-02-01. -/
def slowJan : SlowRec :=
  { id := "s1", memory := "m-jan", metadata := none, created_at := none,
    updated_at := some "2024-01-01" }

def slowMar : SlowRec :=
  { id := "s2", memory := "m-mar", metadata := none, created_at := none,
    updated_at := some "2024-03-01" }

def slowFeb : SlowRec :=
  { id := "s3", memory := "m-feb", metadata := none, created_at := none,
    updated_at := some "2024-02-01" }

/-- Coordinator state for the `last_n_consolidate` example. -/
def hmLastN : HybridMemory :=
  { slow_memory := { agent_id := "default", items := [slowJan, slowMar, slowFeb] },
    fast_memory := fastEmpty }

/-- Slow items for the `top_k_consolidate` example of the spec:
`priority` values 1, 5, 3. -/
def slowP1 : SlowRec :=
  { id := "t1", memory := "p-one", metadata := some [("priority", .pint 1)],
    created_at := none, updated_at := none }

def slowP5 : SlowRec :=
  { id := "t2", memory := "p-five", metadata := some [("priority", .pint 5)],
    created_at := none, updated_at := none }

def slowP3 : SlowRec :=
  { id := "t3", memory := "p-three", metadata := some [("priority", .pint 3)],
    created_at := none, updated_at := none }

/-- Coordinator state for the `top_k_consolidate` example. -/
def hmTopK : HybridMemory :=
  { slow_memory := { agent_id := "default", items := [slowP1, slowP5, slowP3] },
    fast_memory := fastEmpty }

/-- Coordinator state witnessing that `top_k_consolidate` does not copy
metadata: one slow item carrying metadata, empty fast store. -/
def hmMeta : HybridMemory :=
  { slow_memory := { agent_id := "default", items := [slowP5] },
    fast_memory := fastEmpty }

/-- The single row built by `LanceDBMemory.add` for one text with no
metadata (the shape pushed by the consolidation loops). -/
def addRec (db : LanceDBMemory) (s : String) : FastRec :=
  { vector := db.embed s, text := s, id := "uuid-" ++ toString db.fresh,
    metadata := none }

/-- Relation stating `a`'s timestamp is at least `b`'s: the descending order in which
`last_n_consolidate` returns its selection. -/
def lastNGe (a b : SlowRec) : Prop :=
  ∀ ta tb, lastNKeyOf a = Except.ok ta → lastNKeyOf b = Except.ok tb → tb ≤ ta

/-- The order in which `top_k_consolidate` returns its selection:
ascending raw metadata values, descending when `reverse` is set. -/
def topKOrd (key : String) (reverse : Bool) (a b : SlowRec) : Prop :=
  ∀ va vb, topKKeyOf key a = Except.ok va → topKKeyOf key b = Except.ok vb →
    (if reverse then pvalLeB vb va else pvalLeB va vb) = true

/-- The item's sort key under `metadata_key` exists (no `AttributeError`). -/
def keyOk (key : String) (it : SlowRec) : Bool :=
  (topKKeyOf key it).isOk

/-- The item's sort key under `metadata_key` is an `int`. -/
def keyIsInt (key : String) (it : SlowRec) : Bool :=
  match topKKeyOf key it with
  | .ok v => pvalIsInt v
  | .error _ => false

/-- The item's sort key under `metadata_key` is a `str`. -/
def keyIsStr (key : String) (it : SlowRec) : Bool :=
  match topKKeyOf key it with
  | .ok v => pvalIsStr v
  | .error _ => false

theorem insertLe_perm (le : α → α → Bool) (x : α) (l : List α) :
    List.Perm (insertLe le x l) (x :: l) := by
  induction l with
  | nil => simp [insertLe]
  | cons y ys ih =>
    by_cases h : le x y = true
    · simp [insertLe, h]
    · simp only [insertLe, h, if_neg]
      exact List.Perm.trans (List.Perm.cons y ih) (List.Perm.swap x y ys)

theorem isortLe_perm (le : α → α → Bool) (l : List α) :
    List.Perm (isortLe le l) l := by
  induction l with
  | nil => simp [isortLe]
  | cons x xs ih =>
    exact List.Perm.trans (insertLe_perm le x (isortLe le xs)) (List.Perm.cons x ih)

theorem insertLe_pairwise (le : α → α → Bool)
    (htot : ∀ a b, le a b = true ∨ le b a = true)
    (htrans : ∀ a b c, le a b = true → le b c = true → le a c = true)
    (x : α) (l : List α) (hl : l.Pairwise (fun a b => le a b = true)) :
    (insertLe le x l).Pairwise (fun a b => le a b = true) := by
  induction l with
  | nil => simp [insertLe]
  | cons y ys ih =>
    rcases List.pairwise_cons.mp hl with ⟨hy, hys⟩
    by_cases h : le x y = true
    · simp only [insertLe, h, if_pos]
      refine List.pairwise_cons.mpr ⟨?_, hl⟩
      intro z hz
      rcases List.mem_cons.mp hz with rfl | hz
      · exact h
      · exact htrans x y z h (hy z hz)
    · simp only [insertLe, h, if_neg]
      refine List.pairwise_cons.mpr ⟨?_, ih hys⟩
      intro z hz
      rcases List.mem_cons.mp ((insertLe_perm le x ys).mem_iff.mp hz) with hzx | hz
      · rw [hzx]
        rcases htot x y with hxy | hyx
        · exact absurd hxy h
        · exact hyx
      · exact hy z hz

theorem isortLe_pairwise (le : α → α → Bool)
    (htot : ∀ a b, le a b = true ∨ le b a = true)
    (htrans : ∀ a b c, le a b = true → le b c = true → le a c = true)
    (l : List α) :
    (isortLe le l).Pairwise (fun a b => le a b = true) := by
  induction l with
  | nil => simp [isortLe]
  | cons x xs ih => exact insertLe_pairwise le htot htrans x (isortLe le xs) ih

theorem exMapM_ok (f : α → Except PyErr β) (l : List α)
    (h : ∀ x ∈ l, (f x).isOk = true) :
    ∃ ks, exMapM f l = Except.ok ks ∧ ks.length = l.length ∧
      (∀ p ∈ l.zip ks, f p.1 = Except.ok p.2) ∧
      (∀ b ∈ ks, ∃ a ∈ l, f a = Except.ok b) := by
  induction l with
  | nil => exact ⟨[], rfl, rfl, by simp, by simp⟩
  | cons x xs ih =>
    have hx : (f x).isOk = true := h x (List.mem_cons_self x xs)
    obtain ⟨b, hb⟩ : ∃ b, f x = Except.ok b := by
      cases hfx : f x with
      | error e => rw [hfx] at hx; simp [Except.isOk, Except.toBool] at hx
      | ok b => exact ⟨b, rfl⟩
    obtain ⟨ks, hks, hlen, hzip, hmem⟩ := ih (fun a ha => h a (List.mem_cons_of_mem x ha))
    refine ⟨b :: ks, ?_, by simp [hlen], ?_, ?_⟩
    · simp [exMapM, hb, hks]
    · intro p hp
      rcases List.mem_cons.mp (by simpa using hp) with rfl | hp'
      · exact hb
      · exact hzip p hp'
    · intro c hc
      rcases List.mem_cons.mp hc with rfl | hc'
      · exact ⟨x, List.mem_cons_self x xs, hb⟩
      · obtain ⟨a, ha, hfa⟩ := hmem c hc'
        exact ⟨a, List.mem_cons_of_mem x ha, hfa⟩
theorem find?_update_append (l : List (String × List FastRec)) (tn : String) (data : List FastRec) :
    (l.map (fun p => if p.1 == tn then (p.1, p.2 ++ data) else p)).find? (fun p => p.1 == tn)
      = (l.find? (fun p => p.1 == tn)).map (fun p => (p.1, p.2 ++ data)) := by
  induction l with
  | nil => rfl
  | cons p l ih =>
    by_cases hp : (p.1 == tn) = true
    · rw [List.map_cons, if_pos hp]
      simp only [List.find?_cons, hp]
      rfl
    · have hp' : (p.1 == tn) = false := by simpa using hp
      rw [List.map_cons, if_neg hp]
      simp only [List.find?_cons, hp']
      exact ih

theorem find?_none_of_not_contains (l : List (String × List FastRec)) (tn : String)
    (h : (l.map (fun p => p.1)).contains tn = false) :
    l.find? (fun p => p.1 == tn) = none := by
  have hnot : ¬ tn ∈ l.map (fun p => p.1) := by simpa using h
  rw [List.find?_eq_none]
  intro p hp hbeq
  have hmem : p.1 ∈ l.map (fun q => q.1) := List.mem_map_of_mem (fun q => q.1) hp
  rw [eq_of_beq hbeq] at hmem
  exact hnot hmem

theorem find?_isSome_of_contains (l : List (String × List FastRec)) (tn : String)
    (h : (l.map (fun p => p.1)).contains tn = true) :
    ∃ p, l.find? (fun q => q.1 == tn) = some p ∧ (p.1 == tn) = true := by
  have hmem : tn ∈ l.map (fun p => p.1) := by simpa using h
  obtain ⟨p, hp, hpe⟩ := List.mem_map.mp hmem
  have hsome : (l.find? (fun q => q.1 == tn)).isSome := by
    rw [List.find?_isSome]
    exact ⟨p, hp, by simp [hpe]⟩
  obtain ⟨q, hq⟩ := Option.isSome_iff_exists.mp hsome
  have h3 := List.find?_some hq
  exact ⟨q, hq, by simpa using h3⟩
theorem add_single_eq (db : LanceDBMemory) (s : String) :
    db.add (.list [s]) .none none none
      = (if db.tableNames.contains db.table_name then
           { db with
               fresh := db.fresh + 1,
               tables := db.tables.map (fun p =>
                 if p.1 == db.table_name then (p.1, p.2 ++ [addRec db s]) else p) }
         else
           { db with
               fresh := db.fresh + 1,
               tables := db.tables ++ [(db.table_name, [addRec db s])] },
         Except.ok ["uuid-" ++ toString db.fresh]) := by
  simp only [LanceDBMemory.add, genIds, zip4, addRec, List.replicate]
  by_cases hc : db.tableNames.contains db.table_name = true
  · simp [hc, LanceDBMemory.tableNames, List.range_succ]
  · simp [hc, LanceDBMemory.tableNames, List.range_succ]
theorem add_single_tableOf (db : LanceDBMemory) (s : String) :
    ∃ db', db.add (.list [s]) .none none none
        = (db', Except.ok ["uuid-" ++ toString db.fresh]) ∧
      db'.table_name = db.table_name ∧
      tableOf db' db.table_name = tableOf db db.table_name ++ [addRec db s] := by
  rw [add_single_eq]
  by_cases hc : db.tableNames.contains db.table_name = true
  · rw [if_pos hc]
    refine ⟨_, rfl, rfl, ?_⟩
    obtain ⟨p, hp, hpe⟩ := find?_isSome_of_contains db.tables db.table_name hc
    simp only [tableOf, find?_update_append, hp, Option.map_some]
    simp [hpe]
  · rw [if_neg hc]
    refine ⟨_, rfl, rfl, ?_⟩
    have hcf : (db.tables.map (fun p => p.1)).contains db.table_name = false :=
      Bool.eq_false_iff.mpr hc
    have hnone := find?_none_of_not_contains db.tables db.table_name hcf
    simp [tableOf, hnone]

theorem pushTexts_spec (l : List SlowRec) (db : LanceDBMemory) :
    ∃ db' new, pushTexts db l = (db', Except.ok ()) ∧
      db'.table_name = db.table_name ∧
      tableOf db' db.table_name = tableOf db db.table_name ++ new ∧
      new.map FastRec.text = l.map SlowRec.memory ∧
      ∀ r ∈ new, r.metadata = none := by
  induction l generalizing db with
  | nil => exact ⟨db, [], rfl, rfl, by simp, rfl, by simp⟩
  | cons it rest ih =>
    obtain ⟨db1, hadd, htn, htab⟩ := add_single_tableOf db it.memory
    obtain ⟨db', new', hpush, htn', htab', htexts', hmeta'⟩ := ih db1
    refine ⟨db', addRec db it.memory :: new', ?_, ?_, ?_, ?_, ?_⟩
    · show pushTexts db (it :: rest) = _
      simp only [pushTexts, hadd]
      exact hpush
    · rw [htn', htn]
    · rw [htn] at htab' htn'
      rw [htab', htab, List.append_assoc]
      rfl
    · simp [addRec, htexts']
    · intro r hr
      rcases List.mem_cons.mp hr with hrx | hr'
      · rw [hrx]; rfl
      · exact hmeta' r hr'
theorem find?_filter_ne (l : List (String × List FastRec)) (t : String) :
    (l.filter (fun p => p.1 != t)).find? (fun p => p.1 == t) = none := by
  rw [List.find?_eq_none]
  intro p hp
  have hne := List.of_mem_filter hp
  simpa using hne

/-- Claim C8: `prompt_based_consolidate` fails with the not-implemented error on
every prompt and every coordinator state, leaving both stores untouched. -/
theorem prompt_based_consolidate_spec (h : HybridMemory) (prompt : String) :
    h.prompt_based_consolidate prompt = (h, Except.error PyErr.notImplemented) := rfl

/-- Claim C10: `Mem0.query` invokes the client search but has no return
statement, so its result is `None` for every query and result limit. -/
theorem mem0_query_returns_none (m : Mem0) (query_text : String) (n_results : Nat) :
    m.query query_text n_results = none := rfl

/-- Claim C3 (code evaluation): with `fast_query=True` the coordinator's query
returns exactly the fast-memory results; with `fast_query=False` it raises
`TypeError`, because `results.extend` is applied to the `None` that
`Mem0.query` returns — the slow results are never appended. -/
theorem hybrid_query_slow_path_raises (h : HybridMemory) (q : String) (n : Nat) :
    h.query q n true
        = Except.ok ((h.fast_memory.query [q] none n).map QueryItem.fastList) ∧
    h.query q n false = Except.error PyErr.typeError :=
  ⟨rfl, rfl⟩

/-- Claim C6: coordinator `reset` with the default flag resets the slow store
and leaves the fast store untouched (every table's count unchanged);
with the flag false it also resets the fast store (whose default table
then counts 0); the slow store is reset unconditionally. -/
theorem hybrid_reset_spec (h : HybridMemory) (b : Bool) :
    (h.reset true).fast_memory = h.fast_memory ∧
    (h.reset b).slow_memory.items = [] ∧
    (h.reset false).fast_memory = h.fast_memory.reset ∧
    (∀ tn, (h.reset true).fast_memory.count tn = h.fast_memory.count tn) ∧
    (h.reset false).fast_memory.count none = 0 := by
  refine ⟨rfl, rfl, rfl, fun tn => rfl, ?_⟩
  show (h.fast_memory.reset).count none = 0
  cases hfind : List.find? (fun p => p.1 == h.fast_memory.table_name) h.fast_memory.tables with
  | none =>
    simp [LanceDBMemory.reset, LanceDBMemory.drop, LanceDBMemory.count,
      LanceDBMemory.open_table, hfind]
  | some p =>
    have hnone : List.find? (fun _ : String × List FastRec => false) h.fast_memory.tables
        = none := List.find?_eq_none.mpr (fun x _ => by simp)
    simp [LanceDBMemory.reset, LanceDBMemory.drop, LanceDBMemory.count,
      LanceDBMemory.open_table, hfind, hnone]
/-- Claim C1 (code evaluation at the failing input): adding the two texts
`["a", "b"]` with a single metadata mapping returns two ids, yet only ONE
record is stored — `zip` truncates the batch to the single-element
metadata tuple, so the mapping is not broadcast and the second text is
silently dropped. -/
theorem add_single_metadata_truncates :
    (fastEmpty.add (PyTexts.list ["a", "b"])
        (PyMeta.dict [("k", PVal.pstr "v")]) none none).2
      = Except.ok ["uuid-0", "uuid-1"] ∧
    (tableOf (fastEmpty.add (PyTexts.list ["a", "b"])
        (PyMeta.dict [("k", PVal.pstr "v")]) none none).1 "memory").length = 1 ∧
    (tableOf (fastEmpty.add (PyTexts.list ["a", "b"])
        (PyMeta.dict [("k", PVal.pstr "v")]) none none).1 "memory").map FastRec.text
      = ["a"] :=
  ⟨rfl, rfl, rfl⟩

/-- Claim C2 (counterexample): on a nonexistent table, `query` with two query
texts returns a flat empty list — its length is 0, not the number of
query texts. -/
theorem query_missing_table_counterexample :
    fastEmpty.open_table none = none ∧
    (fastEmpty.query ["q1", "q2"] none 5).length ≠ 2 :=
  ⟨rfl, by decide⟩

/-- Claim C2 (amended): `query` against a nonexistent table returns the single
empty list `[]` without raising, whatever the query texts. -/
theorem query_missing_table_empty (db : LanceDBMemory) (query_texts : List String)
    (table_name : Option String) (n_results : Nat)
    (habs : db.open_table table_name = none) :
    db.query query_texts table_name n_results = [] := by
  simp [LanceDBMemory.query, habs]

theorem query_missing_table_empty_witness :
    fastEmpty.open_table none = none ∧ fastEmpty.query ["q1", "q2"] none 5 = [] :=
  ⟨rfl, query_missing_table_empty fastEmpty ["q1", "q2"] none 5 rfl⟩

/-- Claim C7: neither consolidation algorithm ever changes the slow store —
whatever the outcome, the coordinator's slow memory afterwards equals the
slow memory before (consolidation only reads slow items and writes copies
into fast memory). -/
theorem consolidate_preserves_slow_memory (h : HybridMemory)
    (n k limit limit2 : Nat) (metadata_key : String) (reverse : Bool) :
    ((h.last_n_consolidate n limit).1).slow_memory = h.slow_memory ∧
    ((h.top_k_consolidate k metadata_key reverse limit2).1).slow_memory
      = h.slow_memory := by
  constructor
  · rcases hm : exMapM lastNKeyOf (h.slow_memory.get_all limit) with e | ks <;>
      simp [HybridMemory.last_n_consolidate, hm]
  · rcases hm : exMapM (topKKeyOf metadata_key) (h.slow_memory.get_all limit2) with e | ks
    · simp [HybridMemory.top_k_consolidate, hm]
    · by_cases hok : cmpOk ks = true
      · simp [HybridMemory.top_k_consolidate, hm, hok]
      · simp [HybridMemory.top_k_consolidate, hm, hok]
/-- Claim C9 (counterexample): `top_k_consolidate` does NOT preserve metadata:
consolidating the single slow item `slowP5`, which carries
`{"priority": 5}`, produces a fast-tier copy whose metadata is `None`. -/
theorem topk_metadata_not_preserved :
    slowP5.metadata = some [("priority", PVal.pint 5)] ∧
    (tableOf ((hmMeta.top_k_consolidate 1 "priority" false 1000).1).fast_memory
        "memory").map FastRec.metadata = [none] :=
  ⟨rfl, rfl⟩

/-- Claim C9 (amended): both consolidation paths drop metadata — every record
either algorithm appends to the default fast table has `metadata = None`,
so the two paths do not differ in metadata handling. -/
theorem consolidate_drops_metadata (h : HybridMemory)
    (n k limit limit2 : Nat) (metadata_key : String) (reverse : Bool) :
    (∃ new, tableOf ((h.last_n_consolidate n limit).1).fast_memory
          h.fast_memory.table_name
        = tableOf h.fast_memory h.fast_memory.table_name ++ new ∧
        ∀ r ∈ new, r.metadata = none) ∧
    (∃ new, tableOf ((h.top_k_consolidate k metadata_key reverse limit2).1).fast_memory
          h.fast_memory.table_name
        = tableOf h.fast_memory h.fast_memory.table_name ++ new ∧
        ∀ r ∈ new, r.metadata = none) := by
  constructor
  · rcases hm : exMapM lastNKeyOf (h.slow_memory.get_all limit) with e | ks
    · exact ⟨[], by simp [HybridMemory.last_n_consolidate, hm], by simp⟩
    · obtain ⟨db', new, hpush, htn, htab, _, hmeta⟩ :=
        pushTexts_spec
          (((isortLe (fun a b : SlowRec × Nat => decide (b.2 ≤ a.2))
              ((h.slow_memory.get_all limit).zip ks)).take n).map
            (fun p : SlowRec × Nat => p.1))
          h.fast_memory
      refine ⟨new, ?_, hmeta⟩
      simp only [HybridMemory.last_n_consolidate, hm]
      rw [hpush]
      exact htab
  · rcases hm : exMapM (topKKeyOf metadata_key) (h.slow_memory.get_all limit2) with e | ks
    · exact ⟨[], by simp [HybridMemory.top_k_consolidate, hm], by simp⟩
    · by_cases hok : cmpOk ks = true
      · obtain ⟨db', new, hpush, htn, htab, _, hmeta⟩ :=
          pushTexts_spec
            (((isortLe
                (fun a b : SlowRec × PVal =>
                  if reverse then pvalLeB b.2 a.2 else pvalLeB a.2 b.2)
                ((h.slow_memory.get_all limit2).zip ks)).take k).map
              (fun p : SlowRec × PVal => p.1))
            h.fast_memory
        refine ⟨new, ?_, hmeta⟩
        simp only [HybridMemory.top_k_consolidate, hm, hok, if_pos]
        rw [hpush]
        exact htab
      · exact ⟨[], by simp [HybridMemory.top_k_consolidate, hm, hok], by simp⟩
theorem isort_select_spec {α β : Type _} (le : α × β → α × β → Bool)
    (htot : ∀ a b, le a b = true ∨ le b a = true)
    (htrans : ∀ a b c, le a b = true → le b c = true → le a c = true)
    (items : List α) (ks : List β) (hlen : ks.length = items.length) (n : Nat) :
    (((isortLe le (items.zip ks)).take n).map (fun p : α × β => p.1)).length
        = min n items.length ∧
    List.Perm
      (((isortLe le (items.zip ks)).take n).map (fun p : α × β => p.1)
        ++ ((isortLe le (items.zip ks)).drop n).map (fun p : α × β => p.1))
      items ∧
    ((isortLe le (items.zip ks)).take n).Pairwise (fun p q => le p q = true) ∧
    (∀ p ∈ (isortLe le (items.zip ks)).take n,
      ∀ q ∈ (isortLe le (items.zip ks)).drop n, le p q = true) ∧
    (∀ p ∈ isortLe le (items.zip ks), p ∈ items.zip ks) := by
  have hperm0 := isortLe_perm le (items.zip ks)
  have hpwAll := isortLe_pairwise le htot htrans (items.zip ks)
  have hsplit := List.take_append_drop n (isortLe le (items.zip ks))
  have hmapfst : List.map (fun p : α × β => p.1) (items.zip ks) = items := by
    have hfst : (fun p : α × β => p.1) = Prod.fst := rfl
    rw [hfst]
    exact List.map_fst_zip items ks (le_of_eq hlen.symm)
  refine ⟨?_, ?_, ?_, ?_, ?_⟩
  · rw [List.length_map, List.length_take, hperm0.length_eq, List.length_zip, hlen,
      Nat.min_self]
  · have h1 : ((isortLe le (items.zip ks)).take n).map (fun p : α × β => p.1)
        ++ ((isortLe le (items.zip ks)).drop n).map (fun p : α × β => p.1)
        = (isortLe le (items.zip ks)).map (fun p : α × β => p.1) := by
      rw [← List.map_append, hsplit]
    rw [h1]
    have h2 := hperm0.map (fun p : α × β => p.1)
    rw [hmapfst] at h2
    exact h2
  · have := hsplit ▸ hpwAll
    exact (List.pairwise_append.mp this).1
  · have := hsplit ▸ hpwAll
    exact (List.pairwise_append.mp this).2.2
  · exact fun p hp => hperm0.mem_iff.mp hp
/-- Claim C4: with every pulled slow item carrying a parseable timestamp
(`updated_at`, falling back to `created_at`), `last_n_consolidate`
succeeds and returns a selection `sel` of size `min n (pulled count)`
that, together with the unselected remainder, is a permutation of the
pulled items; `sel` is ordered descending by the parsed timestamp, every
selected item's timestamp is at least every unselected item's, and the
fast default table is extended by exactly `sel`'s texts in order. -/
theorem last_n_consolidate_spec (h : HybridMemory) (n limit : Nat)
    (hts : ∀ it ∈ h.slow_memory.get_all limit, (lastNKeyOf it).isOk = true) :
    ∃ sel rest new,
      (h.last_n_consolidate n limit).2 = Except.ok sel ∧
      sel.length = min n (h.slow_memory.get_all limit).length ∧
      List.Perm (sel ++ rest) (h.slow_memory.get_all limit) ∧
      sel.Pairwise lastNGe ∧
      (∀ a ∈ sel, ∀ b ∈ rest, lastNGe a b) ∧
      tableOf ((h.last_n_consolidate n limit).1).fast_memory
          h.fast_memory.table_name
        = tableOf h.fast_memory h.fast_memory.table_name ++ new ∧
      new.map FastRec.text = sel.map SlowRec.memory := by
  obtain ⟨ks, hm, hlen, hzip, _⟩ := exMapM_ok lastNKeyOf (h.slow_memory.get_all limit) hts
  have htot : ∀ a b : SlowRec × Nat,
      (decide (b.2 ≤ a.2)) = true ∨ (decide (a.2 ≤ b.2)) = true := by
    intro a b
    rcases Nat.le_total b.2 a.2 with hh | hh
    · exact Or.inl (by simpa using hh)
    · exact Or.inr (by simpa using hh)
  have htrans : ∀ a b c : SlowRec × Nat,
      (decide (b.2 ≤ a.2)) = true → (decide (c.2 ≤ b.2)) = true →
      (decide (c.2 ≤ a.2)) = true := by
    intro a b c h1 h2
    have h1' := of_decide_eq_true h1
    have h2' := of_decide_eq_true h2
    exact decide_eq_true (Nat.le_trans h2' h1')
  obtain ⟨hlenTake, hperm, hpw, hcross, hmemzip⟩ :=
    isort_select_spec (fun a b : SlowRec × Nat => decide (b.2 ≤ a.2)) htot htrans
      (h.slow_memory.get_all limit) ks hlen n
  obtain ⟨db', new, hpush, htn, htab, htexts, hmeta⟩ :=
    pushTexts_spec
      (((isortLe (fun a b : SlowRec × Nat => decide (b.2 ≤ a.2))
          ((h.slow_memory.get_all limit).zip ks)).take n).map
        (fun p : SlowRec × Nat => p.1))
      h.fast_memory
  have hle2ge : ∀ p q : SlowRec × Nat,
      p ∈ (h.slow_memory.get_all limit).zip ks →
      q ∈ (h.slow_memory.get_all limit).zip ks →
      (decide (q.2 ≤ p.2)) = true → lastNGe p.1 q.1 := by
    intro p q hp hq hle ta tb hta htb
    rw [hzip p hp] at hta
    rw [hzip q hq] at htb
    cases hta
    cases htb
    exact of_decide_eq_true hle
  refine ⟨_, ((isortLe (fun a b : SlowRec × Nat => decide (b.2 ≤ a.2))
      ((h.slow_memory.get_all limit).zip ks)).drop n).map
        (fun p : SlowRec × Nat => p.1), new, ?_, hlenTake, hperm, ?_, ?_, ?_, htexts⟩
  · simp only [HybridMemory.last_n_consolidate, hm]
    rw [hpush]
  · rw [List.pairwise_map]
    refine hpw.imp_of_mem ?_
    intro p q hp hq hle
    exact hle2ge p q (hmemzip p (List.mem_of_mem_take hp))
      (hmemzip q (List.mem_of_mem_take hq)) hle
  · intro a ha b hb
    obtain ⟨p, hp, hpa⟩ := List.mem_map.mp ha
    obtain ⟨q, hq, hqb⟩ := List.mem_map.mp hb
    rw [← hpa, ← hqb]
    exact hle2ge p q (hmemzip p (List.mem_of_mem_take hp))
      (hmemzip q (List.mem_of_mem_drop hq)) (hcross p hp q hq)
  · simp only [HybridMemory.last_n_consolidate, hm]
    rw [hpush]
    exact htab

/-- Claim C4 (witness at the spec's example): over items with `updated_at`
values 2024-01-01, 2024-03-01, 2024-02-01 and `n = 2`, consolidation
selects the 2024-03-01 item then the 2024-02-01 item, in that order, and
the general specification instantiates there. -/
theorem last_n_consolidate_witness :
    (∀ it ∈ hmLastN.slow_memory.get_all 1000, (lastNKeyOf it).isOk = true) ∧
    (hmLastN.last_n_consolidate 2 1000).2 = Except.ok [slowMar, slowFeb] ∧
    (∃ sel rest new,
      (hmLastN.last_n_consolidate 2 1000).2 = Except.ok sel ∧
      sel.length = min 2 (hmLastN.slow_memory.get_all 1000).length ∧
      List.Perm (sel ++ rest) (hmLastN.slow_memory.get_all 1000) ∧
      sel.Pairwise lastNGe ∧
      (∀ a ∈ sel, ∀ b ∈ rest, lastNGe a b) ∧
      tableOf ((hmLastN.last_n_consolidate 2 1000).1).fast_memory
          hmLastN.fast_memory.table_name
        = tableOf hmLastN.fast_memory hmLastN.fast_memory.table_name ++ new ∧
      new.map FastRec.text = sel.map SlowRec.memory) :=
  ⟨by decide, rfl, last_n_consolidate_spec hmLastN 2 1000 (by decide)⟩
theorem pvalLeB_total : ∀ a b, pvalLeB a b = true ∨ pvalLeB b a = true := by
  intro a b
  cases a <;> cases b <;> simp [pvalLeB, pvalTag] <;>
    first
      | exact Int.le_total _ _
      | exact le_total _ _

theorem pvalLeB_trans :
    ∀ a b c, pvalLeB a b = true → pvalLeB b c = true → pvalLeB a c = true := by
  intro a b c
  cases a <;> cases b <;> cases c <;> simp [pvalLeB, pvalTag] <;>
    first
      | omega
      | exact fun h1 h2 => le_trans h1 h2
theorem isOk_of_keyIsInt (key : String) (it : SlowRec)
    (h : keyIsInt key it = true) : (topKKeyOf key it).isOk = true := by
  unfold keyIsInt at h
  cases hk : topKKeyOf key it with
  | ok v => rfl
  | error e => rw [hk] at h; exact absurd h (by simp)

theorem isOk_of_keyIsStr (key : String) (it : SlowRec)
    (h : keyIsStr key it = true) : (topKKeyOf key it).isOk = true := by
  unfold keyIsStr at h
  cases hk : topKKeyOf key it with
  | ok v => rfl
  | error e => rw [hk] at h; exact absurd h (by simp)

theorem pvalIsInt_of_key (key : String) (a : SlowRec) (b : PVal)
    (h1 : keyIsInt key a = true) (h2 : topKKeyOf key a = Except.ok b) :
    pvalIsInt b = true := by
  unfold keyIsInt at h1
  rw [h2] at h1
  exact h1

theorem pvalIsStr_of_key (key : String) (a : SlowRec) (b : PVal)
    (h1 : keyIsStr key a = true) (h2 : topKKeyOf key a = Except.ok b) :
    pvalIsStr b = true := by
  unfold keyIsStr at h1
  rw [h2] at h1
  exact h1
/-- Claim C5: when the pulled items' raw values under `metadata_key` share one
comparable type (all ints or all strings; a single item is trivially
comparable), `top_k_consolidate` succeeds and returns a selection `sel`
of size `min k (pulled count)` that, together with the unselected
remainder, is a permutation of the pulled items; `sel` is ordered by the
raw metadata value — ascending, or descending when `reverse` — every
selected value bounds every unselected one in that order, and the fast
default table is extended by exactly `sel`'s texts. -/
theorem top_k_consolidate_spec (h : HybridMemory) (k limit : Nat)
    (metadata_key : String) (reverse : Bool)
    (hcomp : ((h.slow_memory.get_all limit).length ≤ 1 ∧
        ∀ it ∈ h.slow_memory.get_all limit, keyOk metadata_key it = true) ∨
      (∀ it ∈ h.slow_memory.get_all limit, keyIsInt metadata_key it = true) ∨
      (∀ it ∈ h.slow_memory.get_all limit, keyIsStr metadata_key it = true)) :
    ∃ sel rest new,
      (h.top_k_consolidate k metadata_key reverse limit).2 = Except.ok sel ∧
      sel.length = min k (h.slow_memory.get_all limit).length ∧
      List.Perm (sel ++ rest) (h.slow_memory.get_all limit) ∧
      sel.Pairwise (topKOrd metadata_key reverse) ∧
      (∀ a ∈ sel, ∀ b ∈ rest, topKOrd metadata_key reverse a b) ∧
      tableOf ((h.top_k_consolidate k metadata_key reverse limit).1).fast_memory
          h.fast_memory.table_name
        = tableOf h.fast_memory h.fast_memory.table_name ++ new ∧
      new.map FastRec.text = sel.map SlowRec.memory := by
  have hok : ∀ it ∈ h.slow_memory.get_all limit,
      (topKKeyOf metadata_key it).isOk = true := by
    rcases hcomp with ⟨_, hko⟩ | hint | hstr
    · exact fun it hit => hko it hit
    · exact fun it hit => isOk_of_keyIsInt metadata_key it (hint it hit)
    · exact fun it hit => isOk_of_keyIsStr metadata_key it (hstr it hit)
  obtain ⟨ks, hm, hlen, hzip, hmemks⟩ :=
    exMapM_ok (topKKeyOf metadata_key) (h.slow_memory.get_all limit) hok
  have hcmp : cmpOk ks = true := by
    rcases hcomp with ⟨hlen1, _⟩ | hint | hstr
    · have hk1 : ks.length ≤ 1 := by rw [hlen]; exact hlen1
      simp [cmpOk, hk1]
    · have hall : ks.all pvalIsInt = true := by
        rw [List.all_eq_true]
        intro b hb
        obtain ⟨a, ha, hfa⟩ := hmemks b hb
        exact pvalIsInt_of_key metadata_key a b (hint a ha) hfa
      simp [cmpOk, hall]
    · have hall : ks.all pvalIsStr = true := by
        rw [List.all_eq_true]
        intro b hb
        obtain ⟨a, ha, hfa⟩ := hmemks b hb
        exact pvalIsStr_of_key metadata_key a b (hstr a ha) hfa
      simp [cmpOk, hall]
  have htot : ∀ a b : SlowRec × PVal,
      (if reverse then pvalLeB b.2 a.2 else pvalLeB a.2 b.2) = true ∨
      (if reverse then pvalLeB a.2 b.2 else pvalLeB b.2 a.2) = true := by
    intro a b
    cases reverse
    · exact pvalLeB_total a.2 b.2
    · exact pvalLeB_total b.2 a.2
  have htrans : ∀ a b c : SlowRec × PVal,
      (if reverse then pvalLeB b.2 a.2 else pvalLeB a.2 b.2) = true →
      (if reverse then pvalLeB c.2 b.2 else pvalLeB b.2 c.2) = true →
      (if reverse then pvalLeB c.2 a.2 else pvalLeB a.2 c.2) = true := by
    intro a b c
    cases reverse
    · exact fun h1 h2 => pvalLeB_trans a.2 b.2 c.2 h1 h2
    · exact fun h1 h2 => pvalLeB_trans c.2 b.2 a.2 h2 h1
  obtain ⟨hlenTake, hperm, hpw, hcross, hmemzip⟩ :=
    isort_select_spec
      (fun a b : SlowRec × PVal => if reverse then pvalLeB b.2 a.2 else pvalLeB a.2 b.2)
      htot htrans (h.slow_memory.get_all limit) ks hlen k
  obtain ⟨db', new, hpush, htn, htab, htexts, hmeta⟩ :=
    pushTexts_spec
      (((isortLe
          (fun a b : SlowRec × PVal => if reverse then pvalLeB b.2 a.2 else pvalLeB a.2 b.2)
          ((h.slow_memory.get_all limit).zip ks)).take k).map
        (fun p : SlowRec × PVal => p.1))
      h.fast_memory
  have hle2ord : ∀ p q : SlowRec × PVal,
      p ∈ (h.slow_memory.get_all limit).zip ks →
      q ∈ (h.slow_memory.get_all limit).zip ks →
      (if reverse then pvalLeB q.2 p.2 else pvalLeB p.2 q.2) = true →
      topKOrd metadata_key reverse p.1 q.1 := by
    intro p q hp hq hle va vb hva hvb
    rw [hzip p hp] at hva
    rw [hzip q hq] at hvb
    cases hva
    cases hvb
    exact hle
  refine ⟨_, ((isortLe
      (fun a b : SlowRec × PVal => if reverse then pvalLeB b.2 a.2 else pvalLeB a.2 b.2)
      ((h.slow_memory.get_all limit).zip ks)).drop k).map
        (fun p : SlowRec × PVal => p.1), new, ?_, hlenTake, hperm, ?_, ?_, ?_, htexts⟩
  · simp only [HybridMemory.top_k_consolidate, hm, hcmp, if_pos]
    rw [hpush]
  · rw [List.pairwise_map]
    refine hpw.imp_of_mem ?_
    intro p q hp hq hle
    exact hle2ord p q (hmemzip p (List.mem_of_mem_take hp))
      (hmemzip q (List.mem_of_mem_take hq)) hle
  · intro a ha b hb
    obtain ⟨p, hp, hpa⟩ := List.mem_map.mp ha
    obtain ⟨q, hq, hqb⟩ := List.mem_map.mp hb
    rw [← hpa, ← hqb]
    exact hle2ord p q (hmemzip p (List.mem_of_mem_take hp))
      (hmemzip q (List.mem_of_mem_drop hq)) (hcross p hp q hq)
  · simp only [HybridMemory.top_k_consolidate, hm, hcmp, if_pos]
    rw [hpush]
    exact htab

/-- Claim C5 (witness at the spec's example): over items with `priority` values
1, 5, 3 and `k = 1, reverse = True`, consolidation selects only the item
with priority 5, and the general specification instantiates there. -/
theorem top_k_consolidate_witness :
    (((hmTopK.slow_memory.get_all 1000).length ≤ 1 ∧
        ∀ it ∈ hmTopK.slow_memory.get_all 1000, keyOk "priority" it = true) ∨
      (∀ it ∈ hmTopK.slow_memory.get_all 1000, keyIsInt "priority" it = true) ∨
      (∀ it ∈ hmTopK.slow_memory.get_all 1000, keyIsStr "priority" it = true)) ∧
    (hmTopK.top_k_consolidate 1 "priority" true 1000).2 = Except.ok [slowP5] ∧
    (∃ sel rest new,
      (hmTopK.top_k_consolidate 1 "priority" true 1000).2 = Except.ok sel ∧
      sel.length = min 1 (hmTopK.slow_memory.get_all 1000).length ∧
      List.Perm (sel ++ rest) (hmTopK.slow_memory.get_all 1000) ∧
      sel.Pairwise (topKOrd "priority" true) ∧
      (∀ a ∈ sel, ∀ b ∈ rest, topKOrd "priority" true a b) ∧
      tableOf ((hmTopK.top_k_consolidate 1 "priority" true 1000).1).fast_memory
          hmTopK.fast_memory.table_name
        = tableOf hmTopK.fast_memory hmTopK.fast_memory.table_name ++ new ∧
      new.map FastRec.text = sel.map SlowRec.memory) :=
  ⟨by decide, rfl, top_k_consolidate_spec hmTopK 1 1000 "priority" true (by decide)⟩
